import Mathlib

/-!
Verification development for the Ancilia electrodynamic dust-shield simulation.

The definitions below are a shallow embedding of the dust-transport core of
`src/ancillia-scene.ts` (the hex-panel variant: constants, `hexVertices`,
`isInsideHex`, `computeFieldAt`, `sampleRadius`, `respawnParticle`, `stepDust`)
and of `fieldAt` from `src/ancillia-device-dust.ts`.  JavaScript numbers are
modelled as real numbers; `Math.atan2`, `Math.sin`, `Math.cos`, `Math.pow` and
`Math.floor` are modelled by their exact mathematical counterparts.  The
`THREE.Mesh` handles stored in particle records are pure rendering state and
are omitted; `Math.random()` draws are passed in explicitly as a `Rand` record
(each draw lies in `[0,1)`, and the accepted rejection sample of
`samplePointInHex` is passed as a point inside the sampling hex).
-/

namespace Ancilia

open Real

/-- 3D vector, standing in for `THREE.Vector3`. -/
structure Vec3 where
  x : ℝ
  y : ℝ
  z : ℝ

/-- 2D vector, standing in for `THREE.Vector2`. -/
structure Vec2 where
  x : ℝ
  y : ℝ

/-- Model of `Math.atan2 y x`: the argument of the point `(x, y)`, in `(-pi, pi]`. -/
noncomputable def atan2 (y x : ℝ) : ℝ := Complex.arg (x + y * Complex.I)

/-- Model of `Math.sign`, as used on the (always nonzero) cross products. -/
noncomputable def mathSign (x : ℝ) : ℝ :=
  if x < 0 then -1 else if 0 < x then 1 else 0

/-- Model of `THREE.MathUtils.lerp x y t = x + (y - x) * t`. -/
noncomputable def lerp (x y t : ℝ) : ℝ := x + (y - x) * t

-- Geometry constants of the hex panel (ancillia-scene.ts).
noncomputable def HEX_FLAT : ℝ := 0.38
noncomputable def HEX_POINT : ℝ := 0.44
noncomputable def HEX_APOTHEM : ℝ := HEX_FLAT / 2
noncomputable def HEX_RADIUS : ℝ := HEX_POINT / 2

noncomputable def BASE_THICKNESS : ℝ := 0.004
noncomputable def SUBSTRATE_THICKNESS : ℝ := 0.0016
noncomputable def PANEL_THICKNESS : ℝ := 0.0025

-- Dust / physics constants (ancillia-scene.ts).
noncomputable def DUST_RADIUS_MIN : ℝ := 8e-6
noncomputable def DUST_RADIUS_MAX : ℝ := 38e-6
noncomputable def DUST_DENSITY : ℝ := 3100
noncomputable def DUST_CHARGE_MIN : ℝ := 2e-15
noncomputable def DUST_CHARGE_MAX : ℝ := 9e-14
noncomputable def ADHESION_PER_AREA : ℝ := 50
noncomputable def MARTIAN_GRAVITY : ℝ := 3.71
noncomputable def FIELD_BASE : ℝ := 1.2e5
noncomputable def FIELD_TRAVEL : ℝ := 6.5e4
noncomputable def FIELD_LATERAL : ℝ := 3.1e4
noncomputable def WAVE_FREQUENCY : ℝ := 42
noncomputable def PHASE_SHIFT : ℝ := 2 * π / 3
noncomputable def DRAG_COEFF : ℝ := 0.45
noncomputable def DIRECTIONAL_DRIFT : Vec3 := ⟨0.15, 0, -0.08⟩
noncomputable def TRENCH_INNER_SCALE : ℝ := 1.02
noncomputable def TRENCH_OUTER_SCALE : ℝ := 1.12
noncomputable def CARTRIDGE_HEIGHT : ℝ := 0.012
noncomputable def PANEL_SURFACE_Y : ℝ :=
  BASE_THICKNESS / 2 + SUBSTRATE_THICKNESS + PANEL_THICKNESS / 2
noncomputable def ELECTRODE_SEGMENTS : ℝ := 6

/-- Source `hexVertices(scale)`: the six vertices of the flat-top hexagon at the
given uniform scale about the origin. -/
noncomputable def hexVertices (scale : ℝ) : List Vec2 :=
  (List.range 6).map fun i : ℕ =>
    ⟨HEX_RADIUS * scale * Real.cos (π / 6 + π / 3 * (i : ℝ)),
     HEX_RADIUS * scale * Real.sin (π / 6 + π / 3 * (i : ℝ))⟩

/-- The edge list traversed by the loop in `isInsideHex`:
`(verts[i], verts[(i+1) % verts.length])` for each index `i`. -/
noncomputable def hexEdges (scale : ℝ) : List (Vec2 × Vec2) :=
  let verts := hexVertices scale
  (List.range verts.length).map fun i =>
    (verts.getD i ⟨0, 0⟩, verts.getD ((i + 1) % verts.length) ⟨0, 0⟩)

/-- The 2D cross product computed for one edge inside `isInsideHex`:
`(b.x - a.x) * (point.z - a.y) - (b.y - a.y) * (point.x - a.x)`. -/
noncomputable def edgeCross (point : Vec3) (e : Vec2 × Vec2) : ℝ :=
  (e.2.x - e.1.x) * (point.z - e.1.y) - (e.2.y - e.1.y) * (point.x - e.1.x)

/-- The sign-tracking loop of `isInsideHex`: skip zero cross products, record
the first nonzero sign, reject when a later nonzero sign disagrees. -/
noncomputable def hexLoop (point : Vec3) : List (Vec2 × Vec2) → ℝ → Bool
  | [], _ => true
  | e :: rest, sign =>
    let cross := edgeCross point e
    if cross = 0 then hexLoop point rest sign
    else if sign = 0 then hexLoop point rest (mathSign cross)
    else if mathSign cross = sign then hexLoop point rest sign
    else false

/-- Source `isInsideHex(point, scale)` from ancillia-scene.ts. -/
noncomputable def isInsideHex (point : Vec3) (scale : ℝ) : Bool :=
  hexLoop point (hexEdges scale) 0

/-- One dust grain (`DustParticle` in ancillia-scene.ts, minus the mesh). -/
structure DustParticle where
  position : Vec3
  velocity : Vec3
  radius : ℝ
  mass : ℝ
  charge : ℝ
  adhesion : ℝ
  attached : Bool
  collected : Bool
  collectTimer : ℝ

/-- The `Math.random()` draws consumed by one call of `respawnParticle`.
`spawnX`/`spawnZ` stand for the point returned by `samplePointInHex(0.88)`
(rejection sampling; the accepted point is inside the hex at scale `0.88`). -/
structure Rand where
  tRad : ℝ
  uCharge : ℝ
  spawnX : ℝ
  spawnZ : ℝ
  yJit : ℝ
  vx : ℝ
  vz : ℝ

/-- The draws are `Math.random()` results in `[0,1)` and the accepted sample
point of `samplePointInHex(0.88)` lies inside the hex at that scale. -/
def Rand.Valid (r : Rand) : Prop :=
  0 ≤ r.tRad ∧ r.tRad < 1 ∧ 0 ≤ r.uCharge ∧ r.uCharge < 1 ∧
  0 ≤ r.yJit ∧ r.yJit < 1 ∧ 0 ≤ r.vx ∧ r.vx < 1 ∧ 0 ≤ r.vz ∧ r.vz < 1 ∧
  isInsideHex ⟨r.spawnX, 0, r.spawnZ⟩ 0.88 = true

/-- Source `sampleRadius()`: skewed draw over `[radius_min, radius_max]`. -/
noncomputable def sampleRadius (t : ℝ) : ℝ :=
  DUST_RADIUS_MIN + (DUST_RADIUS_MAX - DUST_RADIUS_MIN) * t ^ (1.8 : ℝ)

/-- Source `respawnParticle`: in-place reinitialization of every physical and
kinematic field from fresh random draws. -/
noncomputable def respawnParticle (p : DustParticle) (r : Rand) : DustParticle :=
  let radius := sampleRadius r.tRad
  let volume := (4 / 3) * π * radius ^ (3 : ℕ)
  let mass := volume * DUST_DENSITY
  let charge := lerp DUST_CHARGE_MIN DUST_CHARGE_MAX r.uCharge
  let adhesion := ADHESION_PER_AREA * π * radius * radius
  { p with
    radius := radius
    mass := mass
    charge := charge
    adhesion := adhesion
    attached := true
    collected := false
    collectTimer := 0
    position := ⟨r.spawnX, PANEL_SURFACE_Y + 0.002 + r.yJit * 0.02, r.spawnZ⟩
    velocity := ⟨(r.vx - 0.5) * 0.01, 0, (r.vz - 0.5) * 0.01⟩ }

-- Field model of ancillia-scene.ts (`computeFieldAt`), with the let-bound
-- intermediate values factored into named definitions.

/-- Intermediate `angle = Math.atan2(position.z, position.x)`. -/
noncomputable def fieldAngle (position : Vec3) : ℝ := atan2 position.z position.x

/-- Intermediate `laneIndex = Math.max(0, Math.min(SEGMENTS - 1, Math.floor(sector)))`
where `sector = ((angle + pi) / (2 pi)) * SEGMENTS`. -/
noncomputable def fieldLane (position : Vec3) : ℝ :=
  max 0 (min (ELECTRODE_SEGMENTS - 1)
    ((⌊(fieldAngle position + π) / (2 * π) * ELECTRODE_SEGMENTS⌋ : ℤ) : ℝ))

/-- Intermediate `phase = time * 2 pi * WAVE_FREQUENCY + laneIndex * PHASE_SHIFT`. -/
noncomputable def fieldPhase (position : Vec3) (time : ℝ) : ℝ :=
  time * 2 * π * WAVE_FREQUENCY + fieldLane position * PHASE_SHIFT

/-- Source `computeFieldAt(position, time)` from ancillia-scene.ts. -/
noncomputable def computeFieldAt (position : Vec3) (time : ℝ) : Vec3 :=
  let angle := fieldAngle position
  let phase := fieldPhase position time
  let Ey := FIELD_BASE + FIELD_TRAVEL * Real.sin phase
  let tangential := FIELD_LATERAL * Real.cos phase
  let radialKick := FIELD_LATERAL * 0.25 * Real.sin (phase + π / 4)
  let radialDir : Vec3 := ⟨Real.cos angle, 0, Real.sin angle⟩
  let tangentDir : Vec3 := ⟨-Real.sin angle, 0, Real.cos angle⟩
  let horizontal : Vec3 :=
    ⟨radialDir.x * radialKick + tangentDir.x * tangential + DIRECTIONAL_DRIFT.x,
     radialDir.y * radialKick + tangentDir.y * tangential + DIRECTIONAL_DRIFT.y,
     radialDir.z * radialKick + tangentDir.z * tangential + DIRECTIONAL_DRIFT.z⟩
  ⟨horizontal.x, Ey, horizontal.z⟩

-- Per-particle forces computed at the top of the `stepDust` loop body.

/-- Force `Fy = p.charge * field.y - p.mass * MARTIAN_GRAVITY`. -/
noncomputable def forceY (p : DustParticle) (time : ℝ) : ℝ :=
  p.charge * (computeFieldAt p.position time).y - p.mass * MARTIAN_GRAVITY

/-- Force `Fx = p.charge * field.x`. -/
noncomputable def forceX (p : DustParticle) (time : ℝ) : ℝ :=
  p.charge * (computeFieldAt p.position time).x

/-- Force `Fz = p.charge * field.z`. -/
noncomputable def forceZ (p : DustParticle) (time : ℝ) : ℝ :=
  p.charge * (computeFieldAt p.position time).z

/-- The `Attached` clamp branch: velocity zeroed and `position.y` pinned to
the panel surface height. -/
noncomputable def attachedClamp (p : DustParticle) : DustParticle :=
  { p with
    velocity := ⟨0, 0, 0⟩
    position := ⟨p.position.x, PANEL_SURFACE_Y, p.position.z⟩ }

/-- The `Attached → Free` release: clear the flag and apply the excess-force
impulse `v.y += (Fy - adhesion) / mass * dt`. -/
noncomputable def release (p : DustParticle) (dt time : ℝ) : DustParticle :=
  { p with
    attached := false
    velocity := ⟨p.velocity.x,
                 p.velocity.y + (forceY p time - p.adhesion) / p.mass * dt,
                 p.velocity.z⟩ }

/-- Explicit-Euler velocity update `v += (F / m) * dt`. -/
noncomputable def velAfterAccel (p : DustParticle) (Fx Fy Fz dt : ℝ) : Vec3 :=
  ⟨p.velocity.x + Fx / p.mass * dt,
   p.velocity.y + Fy / p.mass * dt,
   p.velocity.z + Fz / p.mass * dt⟩

/-- Linear drag `v *= (1 - DRAG_COEFF * dt)` applied to the post-acceleration
velocity. -/
noncomputable def velAfterDrag (p : DustParticle) (Fx Fy Fz dt : ℝ) : Vec3 :=
  let v := velAfterAccel p Fx Fy Fz dt
  ⟨v.x * (1 - DRAG_COEFF * dt),
   v.y * (1 - DRAG_COEFF * dt),
   v.z * (1 - DRAG_COEFF * dt)⟩

/-- Free-flight integration of one step: acceleration, drag, position update
and the surface-collision bounce. -/
noncomputable def freeIntegrate (p : DustParticle) (Fx Fy Fz dt : ℝ) : DustParticle :=
  let v2 := velAfterDrag p Fx Fy Fz dt
  let pos1 : Vec3 := ⟨p.position.x + v2.x * dt,
                      p.position.y + v2.y * dt,
                      p.position.z + v2.z * dt⟩
  if pos1.y < PANEL_SURFACE_Y then
    { p with
      position := ⟨pos1.x, PANEL_SURFACE_Y, pos1.z⟩
      velocity := ⟨v2.x * 0.92, v2.y * (-0.22), v2.z * 0.92⟩ }
  else
    { p with position := pos1, velocity := v2 }

/-- Composition `freeIntegrate` with the forces evaluated at the particle's own state, as
in the `stepDust` loop body. -/
noncomputable def freePhase (p : DustParticle) (dt time : ℝ) : DustParticle :=
  freeIntegrate p (forceX p time) (forceY p time) (forceZ p time) dt

/-- The bounds scale `TRENCH_OUTER_SCALE * 1.05` local to `stepDust`. -/
noncomputable def boundsScale : ℝ := TRENCH_OUTER_SCALE * 1.05

/-- Trench collection and escape handling at the end of a `stepDust`
iteration: collection into the trench ring, else respawn on leaving the
outer bounds or exceeding the maximum height. -/
noncomputable def collectionCheck (p : DustParticle) (r : Rand) : DustParticle :=
  if isInsideHex p.position TRENCH_INNER_SCALE = false ∧
     p.position.y < BASE_THICKNESS + CARTRIDGE_HEIGHT * 2 ∧
     isInsideHex p.position TRENCH_OUTER_SCALE = true then
    { p with
      collected := true
      collectTimer := 0
      position := ⟨p.position.x, BASE_THICKNESS + CARTRIDGE_HEIGHT / 2, p.position.z⟩
      velocity := ⟨0, 0, 0⟩ }
  else if isInsideHex p.position boundsScale = false ∨ p.position.y > 2.5 then
    respawnParticle p r
  else p

/-- One iteration of the `stepDust` loop for a single particle. -/
noncomputable def stepOne (p : DustParticle) (dt time : ℝ) (r : Rand) : DustParticle :=
  if p.collected = true then
    let timer := p.collectTimer + dt
    if timer > 1.2 then respawnParticle { p with collectTimer := timer } r
    else { p with collectTimer := timer }
  else if p.attached = true then
    if forceY p time > p.adhesion then
      collectionCheck (freePhase (release p dt time) dt time) r
    else attachedClamp p
  else
    collectionCheck (freePhase p dt time) r

/-- Advancing a particle through a sequence of `(dt, time, rand)` step calls. -/
noncomputable def stepSeq (p : DustParticle) : List (ℝ × ℝ × Rand) → DustParticle
  | [] => p
  | c :: rest => stepSeq (stepOne p c.1 c.2.1 c.2.2) rest

/-- Number of dwell-timer respawns (the `collectTimer > 1.2` branch firing)
over a sequence of step calls. -/
noncomputable def dwellCount (p : DustParticle) : List (ℝ × ℝ × Rand) → ℕ
  | [] => 0
  | c :: rest =>
    (if p.collected = true ∧ p.collectTimer + c.1 > 1.2 then 1 else 0) +
      dwellCount (stepOne p c.1 c.2.1 c.2.2) rest

end Ancilia

namespace Device

open Real Ancilia

-- Constants of ancillia-device-dust.ts.
noncomputable def HEX_RADIUS : ℝ := 0.45
noncomputable def ELECTRODE_SEGMENTS : ℝ := 12
noncomputable def FIELD_BASE : ℝ := 1.2e5
noncomputable def FIELD_TRAVEL : ℝ := 6.5e4
noncomputable def FIELD_LATERAL : ℝ := 3.1e4
noncomputable def WAVE_FREQ : ℝ := 42
noncomputable def PHASE_SHIFT : ℝ := 2 * π / 3

/-- Intermediate `laneIndex = Math.floor(((ang + pi) / (2 pi)) * ELECTRODE_SEGMENTS)`. -/
noncomputable def fieldLane (pos : Vec3) : ℝ :=
  ((⌊(atan2 pos.z pos.x + π) / (2 * π) * ELECTRODE_SEGMENTS⌋ : ℤ) : ℝ)

/-- Intermediate `phase = t * 2 pi * WAVE_FREQ + laneIndex * PHASE_SHIFT`. -/
noncomputable def fieldPhase (pos : Vec3) (t : ℝ) : ℝ :=
  t * 2 * π * WAVE_FREQ + fieldLane pos * PHASE_SHIFT

/-- Source `fieldAt(pos, t)` from ancillia-device-dust.ts. -/
noncomputable def fieldAt (pos : Vec3) (t : ℝ) : Vec3 :=
  let ang := atan2 pos.z pos.x
  let rad := Real.sqrt (pos.x ^ 2 + pos.z ^ 2) / HEX_RADIUS
  let phase := fieldPhase pos t
  let Ey := FIELD_BASE + FIELD_TRAVEL * Real.sin phase
  let tangMag := FIELD_LATERAL * Real.cos phase * (0.4 + 0.6 * rad)
  let tangent : Vec3 := ⟨-Real.sin ang, 0, Real.cos ang⟩
  ⟨tangent.x * tangMag, Ey, tangent.z * tangMag⟩

end Device

namespace Ancilia

open Real

/-- Vertical field component as the specification document states it
(spec section 4.2, steps 1-4): `Ey = fieldBase + fieldTravel * sin(phase) *
(1 - k * r_norm)` with `r_norm = clamp(|position.xz| / apothem, 0, 1)` and
`k = 0.35`.  Written from the spec's words, for comparison with the vertical
component actually returned by `computeFieldAt`. -/
noncomputable def specVerticalEy (position : Vec3) (time : ℝ) : ℝ :=
  let rNorm := max 0 (min 1 (Real.sqrt (position.x ^ 2 + position.z ^ 2) / HEX_APOTHEM))
  FIELD_BASE + FIELD_TRAVEL * Real.sin (fieldPhase position time) * (1 - 0.35 * rNorm)

end Ancilia

namespace Ancilia

open Real

theorem mathSign_of_pos {x : ℝ} (h : 0 < x) : mathSign x = 1 := by
  simp [mathSign, not_lt.mpr h.le, h]

theorem mathSign_of_neg {x : ℝ} (h : x < 0) : mathSign x = -1 := by
  simp [mathSign, h]

theorem hexLoop_true_of_nonneg (point : Vec3) :
    ∀ (es : List (Vec2 × Vec2)) (sign : ℝ), sign = 0 ∨ sign = 1 →
      (∀ e ∈ es, 0 ≤ edgeCross point e) → hexLoop point es sign = true := by
  intro es
  induction es with
  | nil => intro sign _ _; rfl
  | cons e rest ih =>
    intro sign hs h
    have he : 0 ≤ edgeCross point e := h e (List.mem_cons_self _ _)
    have hrest : ∀ e' ∈ rest, 0 ≤ edgeCross point e' := fun e' he' =>
      h e' (List.mem_cons_of_mem _ he')
    by_cases hz : edgeCross point e = 0
    · simpa [hexLoop, hz] using ih sign hs hrest
    · have hpos : 0 < edgeCross point e := lt_of_le_of_ne he (Ne.symm hz)
      rcases hs with h0 | h1
      · simpa [hexLoop, hz, h0] using ih (mathSign (edgeCross point e))
          (Or.inr (mathSign_of_pos hpos)) hrest
      · have hms : mathSign (edgeCross point e) = sign :=
          (mathSign_of_pos hpos).trans h1.symm
        have hs1 : sign ≠ 0 := by rw [h1]; norm_num
        simpa [hexLoop, hz, hs1, hms] using ih sign (Or.inr h1) hrest

theorem hexLoop_false_of_neg_at_one (point : Vec3) :
    ∀ es : List (Vec2 × Vec2), (∃ e ∈ es, edgeCross point e < 0) →
      hexLoop point es 1 = false := by
  intro es
  induction es with
  | nil => rintro ⟨e, he, _⟩; exact absurd he (List.not_mem_nil e)
  | cons e rest ih =>
    rintro ⟨w, hw, hwneg⟩
    by_cases hz : edgeCross point e = 0
    · have hwrest : w ∈ rest := by
        rcases List.mem_cons.mp hw with rfl | h
        · exact absurd hz (by exact ne_of_lt hwneg)
        · exact h
      simpa [hexLoop, hz] using ih ⟨w, hwrest, hwneg⟩
    · by_cases hneg : edgeCross point e < 0
      · have : mathSign (edgeCross point e) ≠ (1 : ℝ) := by
          rw [mathSign_of_neg hneg]; norm_num
        simp [hexLoop, hz, this]
      · have hpos : 0 < edgeCross point e :=
          lt_of_le_of_ne (not_lt.mp hneg) (Ne.symm hz)
        have hwrest : w ∈ rest := by
          rcases List.mem_cons.mp hw with rfl | h
          · exact absurd hwneg (not_lt.mpr hpos.le)
          · exact h
        simpa [hexLoop, hz, mathSign_of_pos hpos] using ih ⟨w, hwrest, hwneg⟩

theorem hexLoop_false_of_pos_at_negone (point : Vec3) :
    ∀ es : List (Vec2 × Vec2), (∃ e ∈ es, 0 < edgeCross point e) →
      hexLoop point es (-1) = false := by
  intro es
  induction es with
  | nil => rintro ⟨e, he, _⟩; exact absurd he (List.not_mem_nil e)
  | cons e rest ih =>
    rintro ⟨w, hw, hwpos⟩
    by_cases hz : edgeCross point e = 0
    · have hwrest : w ∈ rest := by
        rcases List.mem_cons.mp hw with rfl | h
        · exact absurd hz (by exact ne_of_gt hwpos)
        · exact h
      simpa [hexLoop, hz] using ih ⟨w, hwrest, hwpos⟩
    · by_cases hpos : 0 < edgeCross point e
      · have : mathSign (edgeCross point e) ≠ (-1 : ℝ) := by
          rw [mathSign_of_pos hpos]; norm_num
        simp [hexLoop, hz, this]
      · have hneg : edgeCross point e < 0 :=
          lt_of_le_of_ne (not_lt.mp hpos) hz
        have hwrest : w ∈ rest := by
          rcases List.mem_cons.mp hw with rfl | h
          · exact absurd hwpos (not_lt.mpr hneg.le)
          · exact h
        simpa [hexLoop, hz, mathSign_of_neg hneg] using ih ⟨w, hwrest, hwpos⟩

theorem hexLoop_false_of_mixed (point : Vec3) :
    ∀ es : List (Vec2 × Vec2), (∃ e ∈ es, edgeCross point e < 0) →
      (∃ e ∈ es, 0 < edgeCross point e) → hexLoop point es 0 = false := by
  intro es
  induction es with
  | nil => rintro ⟨e, he, _⟩; exact absurd he (List.not_mem_nil e)
  | cons e rest ih =>
    rintro ⟨w, hw, hwneg⟩ ⟨v, hv, hvpos⟩
    by_cases hz : edgeCross point e = 0
    · have hwrest : w ∈ rest := by
        rcases List.mem_cons.mp hw with rfl | h
        · exact absurd hz (ne_of_lt hwneg)
        · exact h
      have hvrest : v ∈ rest := by
        rcases List.mem_cons.mp hv with rfl | h
        · exact absurd hz (ne_of_gt hvpos)
        · exact h
      simpa [hexLoop, hz] using ih ⟨w, hwrest, hwneg⟩ ⟨v, hvrest, hvpos⟩
    · by_cases hneg : edgeCross point e < 0
      · have hvrest : v ∈ rest := by
          rcases List.mem_cons.mp hv with rfl | h
          · exact absurd hvpos (not_lt.mpr hneg.le)
          · exact h
        have := hexLoop_false_of_pos_at_negone point rest ⟨v, hvrest, hvpos⟩
        simpa [hexLoop, hz, mathSign_of_neg hneg] using this
      · have hpos : 0 < edgeCross point e :=
          lt_of_le_of_ne (not_lt.mp hneg) (Ne.symm hz)
        have hwrest : w ∈ rest := by
          rcases List.mem_cons.mp hw with rfl | h
          · exact absurd hwneg (not_lt.mpr hpos.le)
          · exact h
        have := hexLoop_false_of_neg_at_one point rest ⟨w, hwrest, hwneg⟩
        simpa [hexLoop, hz, mathSign_of_pos hpos] using this

end Ancilia

namespace Ancilia

open Real

theorem hexVertices_eq (s : ℝ) :
    hexVertices s =
      [⟨HEX_RADIUS * s * (Real.sqrt 3 / 2), HEX_RADIUS * s * (1 / 2)⟩,
       ⟨0, HEX_RADIUS * s⟩,
       ⟨-(HEX_RADIUS * s * (Real.sqrt 3 / 2)), HEX_RADIUS * s * (1 / 2)⟩,
       ⟨-(HEX_RADIUS * s * (Real.sqrt 3 / 2)), -(HEX_RADIUS * s * (1 / 2))⟩,
       ⟨0, -(HEX_RADIUS * s)⟩,
       ⟨HEX_RADIUS * s * (Real.sqrt 3 / 2), -(HEX_RADIUS * s * (1 / 2))⟩] := by
  have hr : List.range 6 = [0, 1, 2, 3, 4, 5] := rfl
  have a0 : π / 6 + π / 3 * ((0 : ℕ) : ℝ) = π / 6 := by push_cast; ring
  have a1 : π / 6 + π / 3 * ((1 : ℕ) : ℝ) = π / 2 := by push_cast; ring
  have a2 : π / 6 + π / 3 * ((2 : ℕ) : ℝ) = π - π / 6 := by push_cast; ring
  have a3 : π / 6 + π / 3 * ((3 : ℕ) : ℝ) = π + π / 6 := by push_cast; ring
  have a4 : π / 6 + π / 3 * ((4 : ℕ) : ℝ) = π + π / 2 := by push_cast; ring
  have a5 : π / 6 + π / 3 * ((5 : ℕ) : ℝ) = π + (π - π / 6) := by push_cast; ring
  have cpa : ∀ x : ℝ, Real.cos (π + x) = -Real.cos x := fun x => by
    rw [Real.cos_add, Real.cos_pi, Real.sin_pi]; ring
  have spa : ∀ x : ℝ, Real.sin (π + x) = -Real.sin x := fun x => by
    rw [Real.sin_add, Real.cos_pi, Real.sin_pi]; ring
  unfold hexVertices
  rw [hr]
  simp only [List.map_cons, List.map_nil, a0, a1, a2, a3, a4, a5,
    Real.cos_pi_sub, Real.sin_pi_sub, cpa, spa,
    Real.cos_pi_div_six, Real.sin_pi_div_six,
    Real.cos_pi_div_two, Real.sin_pi_div_two]
  norm_num

theorem hexEdges_eq (s : ℝ) :
    hexEdges s =
      [(⟨HEX_RADIUS * s * (Real.sqrt 3 / 2), HEX_RADIUS * s * (1 / 2)⟩,
        ⟨0, HEX_RADIUS * s⟩),
       (⟨0, HEX_RADIUS * s⟩,
        ⟨-(HEX_RADIUS * s * (Real.sqrt 3 / 2)), HEX_RADIUS * s * (1 / 2)⟩),
       (⟨-(HEX_RADIUS * s * (Real.sqrt 3 / 2)), HEX_RADIUS * s * (1 / 2)⟩,
        ⟨-(HEX_RADIUS * s * (Real.sqrt 3 / 2)), -(HEX_RADIUS * s * (1 / 2))⟩),
       (⟨-(HEX_RADIUS * s * (Real.sqrt 3 / 2)), -(HEX_RADIUS * s * (1 / 2))⟩,
        ⟨0, -(HEX_RADIUS * s)⟩),
       (⟨0, -(HEX_RADIUS * s)⟩,
        ⟨HEX_RADIUS * s * (Real.sqrt 3 / 2), -(HEX_RADIUS * s * (1 / 2))⟩),
       (⟨HEX_RADIUS * s * (Real.sqrt 3 / 2), -(HEX_RADIUS * s * (1 / 2))⟩,
        ⟨HEX_RADIUS * s * (Real.sqrt 3 / 2), HEX_RADIUS * s * (1 / 2)⟩)] := by
  unfold hexEdges
  rw [hexVertices_eq]
  have hr : List.range 6 = [0, 1, 2, 3, 4, 5] := rfl
  simp only [List.length_cons, List.length_nil, hr, List.map_cons, List.map_nil]
  norm_num [List.getD]

end Ancilia

namespace Ancilia

open Real

theorem edgeCross_sum (p : Vec3) (s : ℝ) :
    ((hexEdges s).map (edgeCross p)).sum = 3 * Real.sqrt 3 * HEX_RADIUS ^ 2 * s ^ 2 := by
  rw [hexEdges_eq]
  simp [edgeCross]
  ring

theorem sqrt3_pos : (0 : ℝ) < Real.sqrt 3 := Real.sqrt_pos.mpr (by norm_num)

theorem HEX_RADIUS_pos : (0 : ℝ) < HEX_RADIUS := by norm_num [HEX_RADIUS, HEX_POINT]

theorem isInsideHex_eq_true_iff (p : Vec3) {s : ℝ} (hs : s ≠ 0) :
    isInsideHex p s = true ↔ ∀ e ∈ hexEdges s, 0 ≤ edgeCross p e := by
  constructor
  · intro h
    by_contra hneg
    push_neg at hneg
    obtain ⟨w, hw, hwlt⟩ := hneg
    have hpos : ∃ v ∈ hexEdges s, 0 < edgeCross p v := by
      by_contra hnp
      push_neg at hnp
      have hss : 0 < s ^ 2 := by rcases hs.lt_or_lt with hlt | hlt <;> nlinarith
      have hval : 0 < 3 * Real.sqrt 3 * HEX_RADIUS ^ 2 * s ^ 2 := by
        have h1 : (0 : ℝ) < 3 * Real.sqrt 3 := by nlinarith [sqrt3_pos]
        have h2 : (0 : ℝ) < HEX_RADIUS ^ 2 := pow_pos HEX_RADIUS_pos 2
        exact mul_pos (mul_pos h1 h2) hss
      have hsum := edgeCross_sum p s
      rw [hexEdges_eq] at hnp hsum
      simp only [List.mem_cons, List.not_mem_nil, or_false, forall_eq_or_imp,
        forall_eq] at hnp
      simp only [List.map_cons, List.map_nil, List.sum_cons, List.sum_nil] at hsum
      obtain ⟨h0, h1, h2, h3, h4, h5⟩ := hnp
      linarith
    obtain ⟨v, hv, hvpos⟩ := hpos
    have hfalse := hexLoop_false_of_mixed p (hexEdges s) ⟨w, hw, hwlt⟩ ⟨v, hv, hvpos⟩
    rw [isInsideHex, hfalse] at h
    exact absurd h (by norm_num)
  · intro h
    exact hexLoop_true_of_nonneg p (hexEdges s) 0 (Or.inl rfl) h

theorem isInsideHex_scale_zero (p : Vec3) : isInsideHex p 0 = true := by
  apply hexLoop_true_of_nonneg p _ 0 (Or.inl rfl)
  intro e he
  rw [hexEdges_eq] at he
  simp only [List.mem_cons, List.not_mem_nil, or_false] at he
  rcases he with rfl | rfl | rfl | rfl | rfl | rfl <;>
    · apply le_of_eq
      simp [edgeCross]
      try ring

theorem isInsideHex_origin (y s : ℝ) : isInsideHex ⟨0, y, 0⟩ s = true := by
  apply hexLoop_true_of_nonneg _ _ 0 (Or.inl rfl)
  intro e he
  rw [hexEdges_eq] at he
  simp only [List.mem_cons, List.not_mem_nil, or_false] at he
  have hk : (0 : ℝ) ≤ HEX_RADIUS * s * (HEX_RADIUS * s) * Real.sqrt 3 :=
    mul_nonneg (mul_self_nonneg _) (Real.sqrt_nonneg 3)
  rcases he with rfl | rfl | rfl | rfl | rfl | rfl <;>
    · simp only [edgeCross]
      nlinarith [hk]

end Ancilia

namespace Ancilia

open Real

theorem isInsideHex_scale_mono (p : Vec3) {s1 s2 : ℝ} (h1 : 0 < s1) (h12 : s1 < s2)
    (h : isInsideHex p s1 = true) : isInsideHex p s2 = true := by
  have hs1 : s1 ≠ 0 := ne_of_gt h1
  have h2 : 0 < s2 := h1.trans h12
  have hs2 : s2 ≠ 0 := ne_of_gt h2
  rw [isInsideHex_eq_true_iff p hs1] at h
  rw [isInsideHex_eq_true_iff p hs2]
  rw [hexEdges_eq] at h ⊢
  simp only [List.mem_cons, List.not_mem_nil, or_false, forall_eq_or_imp,
    forall_eq] at h ⊢
  obtain ⟨hc0, hc1, hc2, hc3, hc4, hc5⟩ := h
  have hbig : 0 < s1 * s2 * (s2 - s1) * (Real.sqrt 3 * (HEX_RADIUS * HEX_RADIUS)) :=
    mul_pos (mul_pos (mul_pos h1 h2) (sub_pos.mpr h12))
      (mul_pos sqrt3_pos (mul_pos HEX_RADIUS_pos HEX_RADIUS_pos))
  simp only [edgeCross] at hc0 hc1 hc2 hc3 hc4 hc5 ⊢
  refine ⟨?_, ?_, ?_, ?_, ?_, ?_⟩
  · nlinarith [mul_nonneg hc0 h2.le, hbig, h1]
  · nlinarith [mul_nonneg hc1 h2.le, hbig, h1]
  · nlinarith [mul_nonneg hc2 h2.le, hbig, h1]
  · nlinarith [mul_nonneg hc3 h2.le, hbig, h1]
  · nlinarith [mul_nonneg hc4 h2.le, hbig, h1]
  · nlinarith [mul_nonneg hc5 h2.le, hbig, h1]

end Ancilia

namespace Ancilia

open Real

theorem computeFieldAt_y (position : Vec3) (time : ℝ) :
    (computeFieldAt position time).y =
      FIELD_BASE + FIELD_TRAVEL * Real.sin (fieldPhase position time) := rfl

theorem fieldAngle_pos_x {x : ℝ} (hx : 0 < x) (y : ℝ) :
    fieldAngle ⟨x, y, 0⟩ = 0 := by
  unfold fieldAngle atan2
  simp only [Complex.ofReal_zero, zero_mul, add_zero]
  exact Complex.arg_ofReal_of_nonneg hx.le

theorem fieldLane_pos_x {x : ℝ} (hx : 0 < x) (y : ℝ) :
    fieldLane ⟨x, y, 0⟩ = 3 := by
  unfold fieldLane
  rw [fieldAngle_pos_x hx]
  have hsec : ((0 : ℝ) + π) / (2 * π) * ELECTRODE_SEGMENTS = 3 := by
    rw [ELECTRODE_SEGMENTS]
    have hπ : π ≠ 0 := Real.pi_ne_zero
    field_simp
    ring
  rw [hsec]
  have hfl : (⌊(3 : ℝ)⌋ : ℤ) = 3 := by
    norm_num
  rw [hfl]
  rw [ELECTRODE_SEGMENTS]
  norm_num

theorem fieldPhase_pos_x_zero {x : ℝ} (hx : 0 < x) (y : ℝ) :
    fieldPhase ⟨x, y, 0⟩ 0 = 2 * π := by
  unfold fieldPhase
  rw [fieldLane_pos_x hx, PHASE_SHIFT, WAVE_FREQUENCY]
  ring

theorem computeFieldAt_y_pos_x_zero {x : ℝ} (hx : 0 < x) (y : ℝ) :
    (computeFieldAt ⟨x, y, 0⟩ 0).y = FIELD_BASE := by
  rw [computeFieldAt_y, fieldPhase_pos_x_zero hx, Real.sin_two_pi, mul_zero, add_zero]

theorem forceY_def (p : DustParticle) (time : ℝ) :
    forceY p time =
      p.charge * (computeFieldAt p.position time).y - p.mass * MARTIAN_GRAVITY := rfl

-- Branch reductions for `stepOne`.

theorem stepOne_collected_stay {p : DustParticle} (dt time : ℝ) (r : Rand)
    (hc : p.collected = true) (hle : ¬ p.collectTimer + dt > 1.2) :
    stepOne p dt time r = { p with collectTimer := p.collectTimer + dt } := by
  simp [stepOne, hc, hle]

theorem stepOne_collected_respawn {p : DustParticle} (dt time : ℝ) (r : Rand)
    (hc : p.collected = true) (hgt : p.collectTimer + dt > 1.2) :
    stepOne p dt time r =
      respawnParticle { p with collectTimer := p.collectTimer + dt } r := by
  simp [stepOne, hc, hgt]

theorem stepOne_attached_clamp {p : DustParticle} (dt time : ℝ) (r : Rand)
    (hc : p.collected = false) (ha : p.attached = true)
    (hth : ¬ forceY p time > p.adhesion) :
    stepOne p dt time r = attachedClamp p := by
  simp [stepOne, hc, ha, hth]

theorem stepOne_attached_release {p : DustParticle} (dt time : ℝ) (r : Rand)
    (hc : p.collected = false) (ha : p.attached = true)
    (hth : forceY p time > p.adhesion) :
    stepOne p dt time r =
      collectionCheck (freePhase (release p dt time) dt time) r := by
  simp [stepOne, hc, ha, hth]

theorem stepOne_free {p : DustParticle} (dt time : ℝ) (r : Rand)
    (hc : p.collected = false) (ha : p.attached = false) :
    stepOne p dt time r = collectionCheck (freePhase p dt time) r := by
  simp [stepOne, hc, ha]

end Ancilia

namespace Ancilia

open Real

/-- The invariant of claim C7: positive mass and radius within the sampling
bounds. -/
def ParticleValid (p : DustParticle) : Prop :=
  0 < p.mass ∧ DUST_RADIUS_MIN ≤ p.radius ∧ p.radius ≤ DUST_RADIUS_MAX

theorem sampleRadius_mem {t : ℝ} (h0 : 0 ≤ t) (h1 : t < 1) :
    DUST_RADIUS_MIN ≤ sampleRadius t ∧ sampleRadius t ≤ DUST_RADIUS_MAX := by
  have hp0 : 0 ≤ t ^ (1.8 : ℝ) := Real.rpow_nonneg h0 _
  have hp1 : t ^ (1.8 : ℝ) ≤ 1 := Real.rpow_le_one h0 h1.le (by norm_num)
  unfold sampleRadius DUST_RADIUS_MIN DUST_RADIUS_MAX
  constructor <;> nlinarith

theorem respawnParticle_radius (p : DustParticle) (r : Rand) :
    (respawnParticle p r).radius = sampleRadius r.tRad := rfl

theorem respawnParticle_mass (p : DustParticle) (r : Rand) :
    (respawnParticle p r).mass =
      (4 / 3) * π * sampleRadius r.tRad ^ (3 : ℕ) * DUST_DENSITY := rfl

theorem respawnParticle_charge (p : DustParticle) (r : Rand) :
    (respawnParticle p r).charge =
      lerp DUST_CHARGE_MIN DUST_CHARGE_MAX r.uCharge := rfl

theorem respawnParticle_valid (p : DustParticle) (r : Rand) (hr : r.Valid) :
    ParticleValid (respawnParticle p r) := by
  obtain ⟨ht0, ht1, -⟩ := hr
  have hmem := sampleRadius_mem ht0 ht1
  have hradpos : 0 < sampleRadius r.tRad :=
    lt_of_lt_of_le (by norm_num [DUST_RADIUS_MIN]) hmem.1
  refine ⟨?_, hmem.1, hmem.2⟩
  rw [respawnParticle_mass]
  have hd : (0 : ℝ) < DUST_DENSITY := by norm_num [DUST_DENSITY]
  positivity

theorem freeIntegrate_fields (p : DustParticle) (Fx Fy Fz dt : ℝ) :
    (freeIntegrate p Fx Fy Fz dt).mass = p.mass ∧
    (freeIntegrate p Fx Fy Fz dt).radius = p.radius ∧
    (freeIntegrate p Fx Fy Fz dt).charge = p.charge ∧
    (freeIntegrate p Fx Fy Fz dt).adhesion = p.adhesion ∧
    (freeIntegrate p Fx Fy Fz dt).attached = p.attached ∧
    (freeIntegrate p Fx Fy Fz dt).collected = p.collected ∧
    (freeIntegrate p Fx Fy Fz dt).collectTimer = p.collectTimer := by
  unfold freeIntegrate
  dsimp only
  split_ifs <;> exact ⟨rfl, rfl, rfl, rfl, rfl, rfl, rfl⟩

theorem collectionCheck_mass_radius (p : DustParticle) (r : Rand) :
    ((collectionCheck p r).mass = p.mass ∧ (collectionCheck p r).radius = p.radius) ∨
    collectionCheck p r = respawnParticle p r := by
  unfold collectionCheck
  split_ifs
  · exact Or.inl ⟨rfl, rfl⟩
  · exact Or.inr rfl
  · exact Or.inl ⟨rfl, rfl⟩

theorem respawnParticle_congr (p q : DustParticle) (r : Rand) :
    respawnParticle p r = respawnParticle q r := rfl

theorem freePhase_fields (p : DustParticle) (dt time : ℝ) :
    (freePhase p dt time).mass = p.mass ∧ (freePhase p dt time).radius = p.radius := by
  unfold freePhase
  exact ⟨(freeIntegrate_fields _ _ _ _ _).1, (freeIntegrate_fields _ _ _ _ _).2.1⟩

theorem stepOne_mass_radius (p : DustParticle) (dt time : ℝ) (r : Rand) :
    ((stepOne p dt time r).mass = p.mass ∧ (stepOne p dt time r).radius = p.radius) ∨
    stepOne p dt time r = respawnParticle p r := by
  by_cases hc : p.collected = true
  · by_cases hf : p.collectTimer + dt > 1.2
    · rw [stepOne_collected_respawn dt time r hc hf]
      exact Or.inr (respawnParticle_congr _ _ _)
    · rw [stepOne_collected_stay dt time r hc hf]
      exact Or.inl ⟨rfl, rfl⟩
  · have hc' : p.collected = false := by simpa using hc
    by_cases ha : p.attached = true
    · by_cases hth : forceY p time > p.adhesion
      · rw [stepOne_attached_release dt time r hc' ha hth]
        rcases collectionCheck_mass_radius (freePhase (release p dt time) dt time) r with
          ⟨hm, hrad⟩ | hres
        · refine Or.inl ⟨?_, ?_⟩
          · rw [hm, (freePhase_fields _ _ _).1]; rfl
          · rw [hrad, (freePhase_fields _ _ _).2]; rfl
        · rw [hres]; exact Or.inr (respawnParticle_congr _ _ _)
      · rw [stepOne_attached_clamp dt time r hc' ha hth]
        exact Or.inl ⟨rfl, rfl⟩
    · have ha' : p.attached = false := by simpa using ha
      rw [stepOne_free dt time r hc' ha']
      rcases collectionCheck_mass_radius (freePhase p dt time) r with ⟨hm, hrad⟩ | hres
      · refine Or.inl ⟨?_, ?_⟩
        · rw [hm, (freePhase_fields _ _ _).1]
        · rw [hrad, (freePhase_fields _ _ _).2]
      · rw [hres]; exact Or.inr (respawnParticle_congr _ _ _)

theorem stepOne_preserves_valid {p : DustParticle} (dt time : ℝ) {r : Rand}
    (hp : ParticleValid p) (hr : r.Valid) : ParticleValid (stepOne p dt time r) := by
  rcases stepOne_mass_radius p dt time r with ⟨hm, hrad⟩ | hres
  · exact ⟨hm ▸ hp.1, hrad ▸ hp.2.1, hrad ▸ hp.2.2⟩
  · rw [hres]; exact respawnParticle_valid p r hr

theorem stepSeq_preserves_valid {p : DustParticle} {chunks : List (ℝ × ℝ × Rand)}
    (hp : ParticleValid p) (hr : ∀ c ∈ chunks, Rand.Valid c.2.2) :
    ParticleValid (stepSeq p chunks) := by
  induction chunks generalizing p with
  | nil => exact hp
  | cons c rest ih =>
    exact ih (stepOne_preserves_valid _ _ hp (hr c (List.mem_cons_self _ _)))
      fun c' hc' => hr c' (List.mem_cons_of_mem _ hc')

end Ancilia

namespace Ancilia

open Real

theorem stepSeq_nil (p : DustParticle) : stepSeq p [] = p := rfl

theorem stepSeq_cons (p : DustParticle) (c : ℝ × ℝ × Rand) (l : List (ℝ × ℝ × Rand)) :
    stepSeq p (c :: l) = stepSeq (stepOne p c.1 c.2.1 c.2.2) l := rfl

theorem dwellCount_nil (p : DustParticle) : dwellCount p [] = 0 := rfl

theorem dwellCount_cons (p : DustParticle) (c : ℝ × ℝ × Rand) (l : List (ℝ × ℝ × Rand)) :
    dwellCount p (c :: l) =
      (if p.collected = true ∧ p.collectTimer + c.1 > 1.2 then 1 else 0) +
        dwellCount (stepOne p c.1 c.2.1 c.2.2) l := rfl

theorem freePhase_collected (p : DustParticle) (dt time : ℝ) :
    (freePhase p dt time).collected = p.collected := by
  unfold freePhase
  exact (freeIntegrate_fields _ _ _ _ _).2.2.2.2.2.1

-- Concrete inputs used by the claim witnesses.

/-- A fixed random draw: every `Math.random()` result is `0`, the sample
point is the panel centre. -/
noncomputable def r0 : Rand := ⟨0, 0, 0, 0, 0, 0, 0⟩

theorem r0_valid : r0.Valid := by
  refine ⟨by norm_num [r0], by norm_num [r0], by norm_num [r0], by norm_num [r0],
    by norm_num [r0], by norm_num [r0], by norm_num [r0], by norm_num [r0],
    by norm_num [r0], by norm_num [r0], ?_⟩
  show isInsideHex ⟨(0 : ℝ), 0, 0⟩ 0.88 = true
  exact isInsideHex_origin 0 0.88

/-- Attached particle with a weak grip (adhesion 1 N), sitting on the panel
surface on the positive x axis. -/
noncomputable def pAttachedLo : DustParticle :=
  ⟨⟨0.1, PANEL_SURFACE_Y, 0⟩, ⟨0, 0, 0⟩, 1e-5, 1, 1, 1, true, false, 0⟩

/-- Attached particle with a strong grip (adhesion 2e5 N), same position. -/
noncomputable def pAttachedHi : DustParticle :=
  ⟨⟨0.1, PANEL_SURFACE_Y, 0⟩, ⟨0, 0, 0⟩, 1e-5, 1, 1, 2e5, true, false, 0⟩

/-- A free-flying particle. -/
noncomputable def pFree : DustParticle :=
  ⟨⟨0.1, 0.1, 0⟩, ⟨0, 0, 0⟩, 1e-5, 1, 1, 1, false, false, 0⟩

/-- A freshly collected particle (dwell timer 0). -/
noncomputable def pCollected : DustParticle :=
  ⟨⟨0.21, 0.01, 0⟩, ⟨0, 0, 0⟩, 1e-5, 1, 1, 1, false, true, 0⟩

theorem forceY_pAttachedLo : forceY pAttachedLo 0 = FIELD_BASE - MARTIAN_GRAVITY := by
  rw [forceY_def]
  have hy : (computeFieldAt (⟨0.1, PANEL_SURFACE_Y, 0⟩ : Vec3) 0).y = FIELD_BASE :=
    computeFieldAt_y_pos_x_zero (by norm_num) _
  simp only [pAttachedLo]
  rw [hy]
  ring

theorem forceY_pAttachedHi : forceY pAttachedHi 0 = FIELD_BASE - MARTIAN_GRAVITY := by
  rw [forceY_def]
  have hy : (computeFieldAt (⟨0.1, PANEL_SURFACE_Y, 0⟩ : Vec3) 0).y = FIELD_BASE :=
    computeFieldAt_y_pos_x_zero (by norm_num) _
  simp only [pAttachedHi]
  rw [hy]
  ring

end Ancilia

namespace Ancilia

open Real

/-- Claim C6, counterexample: the claim states that with `scale = 0` the
containment test at the centroid returns `false`; in the code every cross
product of the collapsed polygon is `0`, every edge is skipped, and
`isInsideHex` returns `true`. -/
theorem C6_counterexample : isInsideHex ⟨0, 0, 0⟩ 0 = true :=
  isInsideHex_scale_zero _

/-- Claim C6, amended: the containment test at the polygon centroid returns
`true` with `scale = 1.0`; with `scale = 0` the degenerate polygon's cross
products all vanish and are skipped, so the test returns `true` — at the
centroid and indeed at every point. -/
theorem C6_theorem :
    isInsideHex ⟨0, 0, 0⟩ 1 = true ∧ ∀ p : Vec3, isInsideHex p 0 = true :=
  ⟨isInsideHex_origin 0 1, isInsideHex_scale_zero⟩

/-- Claim C5, counterexample: containment is not scale-monotonic over all
scale pairs: the point `(x, z) = (0, 100)` is contained at scale `0` (all
cross products vanish) but not at scale `1 > 0`. -/
theorem C5_counterexample :
    isInsideHex ⟨0, 0, 100⟩ 0 = true ∧ (0 : ℝ) < 1 ∧
      isInsideHex ⟨0, 0, 100⟩ 1 = false := by
  refine ⟨isInsideHex_scale_zero _, by norm_num, ?_⟩
  by_contra hne
  have htrue : isInsideHex ⟨0, 0, 100⟩ 1 = true := by
    cases hb : isInsideHex ⟨0, 0, 100⟩ 1
    · exact absurd hb hne
    · rfl
  rw [isInsideHex_eq_true_iff _ one_ne_zero, hexEdges_eq] at htrue
  have h0 := htrue _ (List.mem_cons_self _ _)
  simp [edgeCross] at h0
  have hR100 : (0 : ℝ) < 100 - HEX_RADIUS := by norm_num [HEX_RADIUS, HEX_POINT]
  nlinarith [mul_pos (mul_pos sqrt3_pos HEX_RADIUS_pos) hR100]

/-- Claim C5, amended: containment is scale-monotonic for positive scales:
for every point `p` and scales `0 < s1 < s2`, if `isInsideHex p s1` holds
then `isInsideHex p s2` holds.  (At `s1 = 0` the degenerate polygon accepts
every point, so the unrestricted statement fails.) -/
theorem C5_theorem (p : Vec3) {s1 s2 : ℝ} (h1 : 0 < s1) (h12 : s1 < s2)
    (h : isInsideHex p s1 = true) : isInsideHex p s2 = true :=
  isInsideHex_scale_mono p h1 h12 h

/-- Claim C5, witness: the amended theorem applied at the centroid with
scales `1 < 2`. -/
theorem C5_witness : isInsideHex ⟨0, 0, 0⟩ 2 = true :=
  C5_theorem ⟨0, 0, 0⟩ (by norm_num) (by norm_num) (isInsideHex_origin 0 1)

end Ancilia

namespace Ancilia

open Real

/-- Claim C4, counterexample: at the panel-edge point `(0.19, 0, 0)` (where
`r_norm = 1`) and `time = 1/168` (where `sin(phase) = 1`), the code's
vertical component is `FIELD_BASE + FIELD_TRAVEL = 185000`, while the spec
formula with the `(1 - 0.35 * r_norm)` damping gives `162250`. -/
theorem C4_counterexample :
    (computeFieldAt ⟨0.19, 0, 0⟩ (1 / 168)).y ≠
      specVerticalEy ⟨0.19, 0, 0⟩ (1 / 168) := by
  have hphase : fieldPhase ⟨(0.19 : ℝ), 0, 0⟩ (1 / 168) = π / 2 + 2 * π := by
    unfold fieldPhase
    rw [fieldLane_pos_x (by norm_num)]
    rw [PHASE_SHIFT, WAVE_FREQUENCY]
    ring
  have hsin : Real.sin (fieldPhase ⟨(0.19 : ℝ), 0, 0⟩ (1 / 168)) = 1 := by
    rw [hphase, Real.sin_add_two_pi, Real.sin_pi_div_two]
  have hrn : Real.sqrt ((0.19 : ℝ) ^ 2 + 0 ^ 2) = 0.19 := by
    rw [show ((0.19 : ℝ) ^ 2 + 0 ^ 2) = 0.19 ^ 2 by ring]
    exact Real.sqrt_sq (by norm_num)
  rw [computeFieldAt_y, hsin]
  unfold specVerticalEy
  dsimp only
  rw [hsin, hrn]
  rw [FIELD_BASE, FIELD_TRAVEL, HEX_APOTHEM, HEX_FLAT]
  norm_num

/-- Claim C4, amended: in both cited field models (`computeFieldAt` in
ancillia-scene.ts and `fieldAt` in ancillia-device-dust.ts) the vertical
component is `fieldBase + fieldTravel * sin(phase)` with no radial damping
factor: the `(1 - 0.35 * r_norm)` term of the spec does not appear, and the
vertical component depends on the position only through the lane index. -/
theorem C4_theorem :
    (∀ (position : Vec3) (time : ℝ),
      (computeFieldAt position time).y =
        FIELD_BASE + FIELD_TRAVEL * Real.sin (fieldPhase position time)) ∧
    (∀ (pos : Vec3) (t : ℝ),
      (Device.fieldAt pos t).y =
        Device.FIELD_BASE + Device.FIELD_TRAVEL * Real.sin (Device.fieldPhase pos t)) ∧
    (∀ (p q : Vec3) (t : ℝ), fieldLane p = fieldLane q →
      (computeFieldAt p t).y = (computeFieldAt q t).y) := by
  refine ⟨fun position time => rfl, fun pos t => rfl, fun p q t h => ?_⟩
  rw [computeFieldAt_y, computeFieldAt_y]
  unfold fieldPhase
  rw [h]

/-- Claim C4, witness: the lane-dependence conjunct applied at two points on
the positive x axis at different radii: the vertical component is the same. -/
theorem C4_witness :
    (computeFieldAt ⟨1, 0, 0⟩ 5).y = (computeFieldAt ⟨2, 0, 0⟩ 5).y :=
  C4_theorem.2.2 ⟨1, 0, 0⟩ ⟨2, 0, 0⟩ 5
    ((fieldLane_pos_x (by norm_num) 0).trans (fieldLane_pos_x (by norm_num) 0).symm)

end Ancilia

namespace Ancilia

open Real

/-- Claim C1: for a particle in state Attached, the per-step transition rule
releases it to Free exactly when `F_y = charge * Ey - mass * gravity`
strictly exceeds `adhesionForce`: below or at the threshold the step clamps
the particle and it stays Attached; above it the step clears `attached` and
adds exactly `(F_y - adhesionForce) / mass * dt` to the vertical velocity
before the free-flight integration of the same step. -/
theorem C1_theorem (p : DustParticle) (dt time : ℝ) (r : Rand)
    (hc : p.collected = false) (ha : p.attached = true) :
    (¬ forceY p time > p.adhesion →
      stepOne p dt time r = attachedClamp p ∧
        (stepOne p dt time r).attached = true) ∧
    (forceY p time > p.adhesion →
      (release p dt time).attached = false ∧
      (release p dt time).velocity.y =
        p.velocity.y + (forceY p time - p.adhesion) / p.mass * dt ∧
      (release p dt time).velocity.x = p.velocity.x ∧
      (release p dt time).velocity.z = p.velocity.z ∧
      (release p dt time).position = p.position ∧
      stepOne p dt time r =
        collectionCheck (freePhase (release p dt time) dt time) r) := by
  constructor
  · intro hth
    refine ⟨stepOne_attached_clamp dt time r hc ha hth, ?_⟩
    rw [stepOne_attached_clamp dt time r hc ha hth]
    exact ha
  · intro hth
    exact ⟨rfl, rfl, rfl, rfl, rfl, stepOne_attached_release dt time r hc ha hth⟩

/-- Claim C1, witness: at the panel surface with `time = 0` the vertical
force on `pAttachedLo` is `FIELD_BASE - MARTIAN_GRAVITY`, which exceeds its
adhesion of `1`; the release applies exactly the impulse. -/
theorem C1_witness :
    forceY pAttachedLo 0 > pAttachedLo.adhesion ∧
    (release pAttachedLo 2 0).attached = false ∧
    (release pAttachedLo 2 0).velocity.y =
      pAttachedLo.velocity.y +
        (forceY pAttachedLo 0 - pAttachedLo.adhesion) / pAttachedLo.mass * 2 ∧
    stepOne pAttachedLo 2 0 r0 =
      collectionCheck (freePhase (release pAttachedLo 2 0) 2 0) r0 := by
  have hth : forceY pAttachedLo 0 > pAttachedLo.adhesion := by
    rw [forceY_pAttachedLo]
    show FIELD_BASE - MARTIAN_GRAVITY > (1 : ℝ)
    norm_num [FIELD_BASE, MARTIAN_GRAVITY]
  have h := (C1_theorem pAttachedLo 2 0 r0 rfl rfl).2 hth
  exact ⟨hth, h.1, h.2.1, h.2.2.2.2.2⟩

/-- Claim C8: while Attached and at or below the adhesion threshold, a step
only pins the particle: `position.x` and `position.z` are unchanged,
`position.y` is pinned to the panel surface height, the velocity is zeroed,
the particle stays Attached; and any further step taken while still below
the threshold leaves the state exactly unchanged (the clamp is idempotent). -/
theorem C8_theorem (p : DustParticle) (dt time : ℝ) (r : Rand)
    (hc : p.collected = false) (ha : p.attached = true)
    (hth : ¬ forceY p time > p.adhesion) :
    (stepOne p dt time r).position.x = p.position.x ∧
    (stepOne p dt time r).position.z = p.position.z ∧
    (stepOne p dt time r).position.y = PANEL_SURFACE_Y ∧
    (stepOne p dt time r).velocity = ⟨0, 0, 0⟩ ∧
    (stepOne p dt time r).attached = true ∧
    (stepOne p dt time r).collected = false ∧
    ∀ (dt' time' : ℝ) (r' : Rand),
      ¬ forceY (stepOne p dt time r) time' > (stepOne p dt time r).adhesion →
      stepOne (stepOne p dt time r) dt' time' r' = stepOne p dt time r := by
  rw [stepOne_attached_clamp dt time r hc ha hth]
  refine ⟨rfl, rfl, rfl, rfl, ha, hc, ?_⟩
  intro dt' time' r' hth'
  have hcc : (attachedClamp p).collected = false := hc
  have hac : (attachedClamp p).attached = true := ha
  rw [stepOne_attached_clamp dt' time' r' hcc hac hth']
  rfl

/-- Claim C8, witness: `pAttachedHi` (adhesion `2e5`) stays clamped: one
step zeroes the velocity and pins the height, and a second step at the same
time leaves the state unchanged. -/
theorem C8_witness :
    (stepOne pAttachedHi 1 0 r0).velocity = ⟨0, 0, 0⟩ ∧
    (stepOne pAttachedHi 1 0 r0).position.y = PANEL_SURFACE_Y ∧
    stepOne (stepOne pAttachedHi 1 0 r0) 1 0 r0 = stepOne pAttachedHi 1 0 r0 := by
  have hth : ¬ forceY pAttachedHi 0 > pAttachedHi.adhesion := by
    rw [forceY_pAttachedHi]
    show ¬ FIELD_BASE - MARTIAN_GRAVITY > (2e5 : ℝ)
    norm_num [FIELD_BASE, MARTIAN_GRAVITY]
  have hth' : ¬ forceY (stepOne pAttachedHi 1 0 r0) 0 >
      (stepOne pAttachedHi 1 0 r0).adhesion := by
    rw [stepOne_attached_clamp 1 0 r0 rfl rfl hth]
    show ¬ forceY (attachedClamp pAttachedHi) 0 > (attachedClamp pAttachedHi).adhesion
    have hy : (computeFieldAt (⟨0.1, PANEL_SURFACE_Y, 0⟩ : Vec3) 0).y = FIELD_BASE :=
      computeFieldAt_y_pos_x_zero (by norm_num) _
    rw [forceY_def]
    show ¬ (1 : ℝ) * (computeFieldAt (⟨0.1, PANEL_SURFACE_Y, 0⟩ : Vec3) 0).y -
      1 * MARTIAN_GRAVITY > 2e5
    rw [hy]
    norm_num [FIELD_BASE, MARTIAN_GRAVITY]
  have h := C8_theorem pAttachedHi 1 0 r0 rfl rfl hth
  exact ⟨h.2.2.2.1, h.2.2.1, h.2.2.2.2.2.2 1 0 r0 hth'⟩

end Ancilia

namespace Ancilia

open Real

/-- Claim C2: a Free particle becomes Collected in a step exactly when its
post-integration position is outside the inner trench boundary, inside the
outer trench boundary, and below `BASE_THICKNESS + 2 * CARTRIDGE_HEIGHT`;
on that transition the velocity is zeroed, `position.y` is snapped to the
trench mid-depth `BASE_THICKNESS + CARTRIDGE_HEIGHT / 2`, and the dwell
timer is reset to `0`. -/
theorem C2_theorem (p : DustParticle) (dt time : ℝ) (r : Rand)
    (hc : p.collected = false) (ha : p.attached = false) :
    ((stepOne p dt time r).collected = true ↔
      (isInsideHex (freePhase p dt time).position TRENCH_INNER_SCALE = false ∧
       (freePhase p dt time).position.y < BASE_THICKNESS + CARTRIDGE_HEIGHT * 2 ∧
       isInsideHex (freePhase p dt time).position TRENCH_OUTER_SCALE = true)) ∧
    ((isInsideHex (freePhase p dt time).position TRENCH_INNER_SCALE = false ∧
      (freePhase p dt time).position.y < BASE_THICKNESS + CARTRIDGE_HEIGHT * 2 ∧
      isInsideHex (freePhase p dt time).position TRENCH_OUTER_SCALE = true) →
      stepOne p dt time r =
        { freePhase p dt time with
          collected := true
          collectTimer := 0
          position := ⟨(freePhase p dt time).position.x,
                       BASE_THICKNESS + CARTRIDGE_HEIGHT / 2,
                       (freePhase p dt time).position.z⟩
          velocity := ⟨0, 0, 0⟩ }) := by
  rw [stepOne_free dt time r hc ha]
  have hqc : (freePhase p dt time).collected = false := by
    rw [freePhase_collected]; exact hc
  constructor
  · constructor
    · intro hcol
      by_contra hcond
      unfold collectionCheck at hcol
      rw [if_neg hcond] at hcol
      split_ifs at hcol with hesc
      · have hfalse : (respawnParticle (freePhase p dt time) r).collected = false := rfl
        rw [hfalse] at hcol
        exact absurd hcol (by decide)
      · rw [hqc] at hcol
        exact absurd hcol (by decide)
    · intro hcond
      unfold collectionCheck
      rw [if_pos hcond]
  · intro hcond
    unfold collectionCheck
    rw [if_pos hcond]

/-- Claim C2, witness: the collection characterization, instantiated for the
concrete free particle `pFree`. -/
theorem C2_witness :
    (stepOne pFree 0.5 0 r0).collected = true ↔
      (isInsideHex (freePhase pFree 0.5 0).position TRENCH_INNER_SCALE = false ∧
       (freePhase pFree 0.5 0).position.y < BASE_THICKNESS + CARTRIDGE_HEIGHT * 2 ∧
       isInsideHex (freePhase pFree 0.5 0).position TRENCH_OUTER_SCALE = true) :=
  (C2_theorem pFree 0.5 0 r0 rfl rfl).1

/-- Claim C9: a step on a Collected particle whose timer will not pass the
1.2 s dwell only advances the timer by exactly `dt`; position, velocity and
all physical fields are unchanged. -/
theorem C9_theorem (p : DustParticle) (dt time : ℝ) (r : Rand)
    (hc : p.collected = true) (hle : p.collectTimer + dt ≤ 1.2) :
    stepOne p dt time r = { p with collectTimer := p.collectTimer + dt } :=
  stepOne_collected_stay dt time r hc (not_lt.mpr hle)

/-- Claim C9, witness: the frame condition applied to `pCollected` with
`dt = 0.5`. -/
theorem C9_witness :
    stepOne pCollected 0.5 7 r0 =
      { pCollected with collectTimer := pCollected.collectTimer + 0.5 } :=
  C9_theorem pCollected 0.5 7 r0 rfl (by norm_num [pCollected])

/-- Claim C10: for `dt > 1 / DRAG_COEFF` the drag factor `1 - 0.45 * dt` is
negative; the drag update multiplies the post-acceleration velocity
componentwise by this factor, so every nonzero component's sign is
reversed.  No upper bound on `dt` is enforced anywhere in the step. -/
theorem C10_theorem (p : DustParticle) (Fx Fy Fz dt : ℝ)
    (hdt : 1 / DRAG_COEFF < dt) :
    1 - DRAG_COEFF * dt < 0 ∧
    velAfterDrag p Fx Fy Fz dt =
      ⟨(velAfterAccel p Fx Fy Fz dt).x * (1 - DRAG_COEFF * dt),
       (velAfterAccel p Fx Fy Fz dt).y * (1 - DRAG_COEFF * dt),
       (velAfterAccel p Fx Fy Fz dt).z * (1 - DRAG_COEFF * dt)⟩ ∧
    ((velAfterAccel p Fx Fy Fz dt).x ≠ 0 →
      (velAfterAccel p Fx Fy Fz dt).x * (velAfterDrag p Fx Fy Fz dt).x < 0) ∧
    ((velAfterAccel p Fx Fy Fz dt).y ≠ 0 →
      (velAfterAccel p Fx Fy Fz dt).y * (velAfterDrag p Fx Fy Fz dt).y < 0) ∧
    ((velAfterAccel p Fx Fy Fz dt).z ≠ 0 →
      (velAfterAccel p Fx Fy Fz dt).z * (velAfterDrag p Fx Fy Fz dt).z < 0) := by
  have hneg : 1 - DRAG_COEFF * dt < 0 := by
    rw [DRAG_COEFF] at hdt ⊢
    nlinarith
  refine ⟨hneg, rfl, ?_, ?_, ?_⟩
  · intro hne
    show (velAfterAccel p Fx Fy Fz dt).x *
      ((velAfterAccel p Fx Fy Fz dt).x * (1 - DRAG_COEFF * dt)) < 0
    rcases hne.lt_or_lt with h | h
    · nlinarith [mul_neg_of_pos_of_neg (mul_pos_of_neg_of_neg h h) hneg]
    · nlinarith [mul_neg_of_pos_of_neg (mul_pos h h) hneg]
  · intro hne
    show (velAfterAccel p Fx Fy Fz dt).y *
      ((velAfterAccel p Fx Fy Fz dt).y * (1 - DRAG_COEFF * dt)) < 0
    rcases hne.lt_or_lt with h | h
    · nlinarith [mul_neg_of_pos_of_neg (mul_pos_of_neg_of_neg h h) hneg]
    · nlinarith [mul_neg_of_pos_of_neg (mul_pos h h) hneg]
  · intro hne
    show (velAfterAccel p Fx Fy Fz dt).z *
      ((velAfterAccel p Fx Fy Fz dt).z * (1 - DRAG_COEFF * dt)) < 0
    rcases hne.lt_or_lt with h | h
    · nlinarith [mul_neg_of_pos_of_neg (mul_pos_of_neg_of_neg h h) hneg]
    · nlinarith [mul_neg_of_pos_of_neg (mul_pos h h) hneg]

/-- Claim C10, witness: with `dt = 3 > 1/0.45`, the drag factor is negative
and the x component of the dragged velocity has opposite sign from the
post-acceleration velocity. -/
theorem C10_witness :
    1 - DRAG_COEFF * 3 < 0 ∧
    (velAfterAccel pFree 1 1 1 3).x * (velAfterDrag pFree 1 1 1 3).x < 0 := by
  have h := C10_theorem pFree 1 1 1 3 (by norm_num [DRAG_COEFF])
  refine ⟨h.1, h.2.2.1 ?_⟩
  show pFree.velocity.x + 1 / pFree.mass * 3 ≠ 0
  norm_num [pFree]

end Ancilia

namespace Ancilia

open Real

/-- Claim C7: every respawn resets the state to Attached with timer 0 and
draws radius, charge and adhesion within their documented bounds
(`radius ∈ [8e-6, 38e-6]`, `charge ∈ [2e-15, 9e-14]`,
`adhesion = ADHESION_PER_AREA * pi * radius^2`) with positive mass; and the
invariant `0 < mass ∧ radius ∈ [radius_min, radius_max]` is preserved by
every single step and by every sequence of steps (respawns included). -/
theorem C7_theorem :
    (∀ (p : DustParticle) (r : Rand), r.Valid →
      (respawnParticle p r).attached = true ∧
      (respawnParticle p r).collected = false ∧
      (respawnParticle p r).collectTimer = 0 ∧
      DUST_RADIUS_MIN ≤ (respawnParticle p r).radius ∧
      (respawnParticle p r).radius ≤ DUST_RADIUS_MAX ∧
      DUST_CHARGE_MIN ≤ (respawnParticle p r).charge ∧
      (respawnParticle p r).charge ≤ DUST_CHARGE_MAX ∧
      (respawnParticle p r).adhesion =
        ADHESION_PER_AREA * π * (respawnParticle p r).radius *
          (respawnParticle p r).radius ∧
      0 < (respawnParticle p r).mass) ∧
    (∀ (p : DustParticle) (dt time : ℝ) (r : Rand),
      ParticleValid p → r.Valid → ParticleValid (stepOne p dt time r)) ∧
    (∀ (p : DustParticle) (chunks : List (ℝ × ℝ × Rand)),
      ParticleValid p → (∀ c ∈ chunks, Rand.Valid c.2.2) →
      ParticleValid (stepSeq p chunks)) := by
  refine ⟨?_, fun p dt time r hp hr => stepOne_preserves_valid dt time hp hr,
    fun p chunks hp hr => stepSeq_preserves_valid hp hr⟩
  intro p r hr
  have hvalid := respawnParticle_valid p r hr
  obtain ⟨ht0, ht1, hu0, hu1, -⟩ := hr
  have hmem := sampleRadius_mem ht0 ht1
  refine ⟨rfl, rfl, rfl, hmem.1, hmem.2, ?_, ?_, rfl, hvalid.1⟩
  · rw [respawnParticle_charge]
    unfold lerp DUST_CHARGE_MIN DUST_CHARGE_MAX
    nlinarith
  · rw [respawnParticle_charge]
    unfold lerp DUST_CHARGE_MIN DUST_CHARGE_MAX
    nlinarith

/-- Claim C7, witness: respawning `pFree` from the fixed draw `r0` resets it
to Attached with timer 0 and positive mass, and a one-step sequence keeps
the particle invariant. -/
theorem C7_witness :
    (respawnParticle pFree r0).attached = true ∧
    (respawnParticle pFree r0).collectTimer = 0 ∧
    0 < (respawnParticle pFree r0).mass ∧
    ParticleValid (stepSeq pFree [(1, 0, r0)]) := by
  have hpv : ParticleValid pFree :=
    ⟨by norm_num [pFree], by norm_num [pFree, DUST_RADIUS_MIN],
     by norm_num [pFree, DUST_RADIUS_MAX]⟩
  have h1 := C7_theorem.1 pFree r0 r0_valid
  have h3 := C7_theorem.2.2 pFree [(1, 0, r0)] hpv (by
    intro c hc
    rw [List.mem_singleton] at hc
    subst hc
    exact r0_valid)
  exact ⟨h1.1, h1.2.2.1, h1.2.2.2.2.2.2.2.2, h3⟩

end Ancilia

namespace Ancilia

open Real

/-- Claim C3: stepping a Collected particle (dwell timer not yet expired)
through any sequence of positive `dt` chunks whose accumulated sum passes
the fixed 1.2 s dwell time triggers exactly one dwell respawn: before the
first chunk that crosses 1.2 s the particle stays Collected with its timer
equal to the exact running sum (step-size independent), the crossing chunk
fires the single respawn, and the particle leaves that chunk Attached with
`collectTimer = 0` and `collected = false`. -/
theorem C3_theorem (p : DustParticle) (chunks : List (ℝ × ℝ × Rand))
    (hc : p.collected = true) (hc0 : p.collectTimer ≤ 1.2)
    (hdt : ∀ c ∈ chunks, 0 < c.1)
    (hsum : 1.2 < p.collectTimer + (chunks.map fun c => c.1).sum) :
    ∃ k < chunks.length,
      (∀ j ≤ k, (stepSeq p (chunks.take j)).collected = true ∧
        (stepSeq p (chunks.take j)).collectTimer =
          p.collectTimer + ((chunks.take j).map fun c => c.1).sum) ∧
      (∀ j ≤ k, p.collectTimer + ((chunks.take j).map fun c => c.1).sum ≤ 1.2) ∧
      1.2 < p.collectTimer + ((chunks.take (k + 1)).map fun c => c.1).sum ∧
      dwellCount p (chunks.take (k + 1)) = 1 ∧
      (stepSeq p (chunks.take (k + 1))).attached = true ∧
      (stepSeq p (chunks.take (k + 1))).collected = false ∧
      (stepSeq p (chunks.take (k + 1))).collectTimer = 0 := by
  revert hc hc0 hdt hsum
  induction chunks generalizing p with
  | nil =>
    intro hc hc0 hdt hsum
    exfalso
    simp only [List.map_nil, List.sum_nil, add_zero] at hsum
    linarith
  | cons c rest ih =>
    intro hc hc0 hdt hsum
    by_cases hfire : p.collectTimer + c.1 > 1.2
    · refine ⟨0, Nat.succ_pos _, ?_, ?_, ?_, ?_, ?_, ?_, ?_⟩
      · intro j hj
        have hj0 : j = 0 := Nat.le_zero.mp hj
        subst hj0
        refine ⟨hc, ?_⟩
        rw [List.take_zero, stepSeq_nil]
        simp
      · intro j hj
        have hj0 : j = 0 := Nat.le_zero.mp hj
        subst hj0
        simpa using hc0
      · simpa using hfire
      · rw [List.take_succ_cons, List.take_zero, dwellCount_cons, dwellCount_nil,
          if_pos ⟨hc, hfire⟩]
      · rw [List.take_succ_cons, List.take_zero, stepSeq_cons, stepSeq_nil,
          stepOne_collected_respawn c.1 c.2.1 c.2.2 hc hfire]
        rfl
      · rw [List.take_succ_cons, List.take_zero, stepSeq_cons, stepSeq_nil,
          stepOne_collected_respawn c.1 c.2.1 c.2.2 hc hfire]
        rfl
      · rw [List.take_succ_cons, List.take_zero, stepSeq_cons, stepSeq_nil,
          stepOne_collected_respawn c.1 c.2.1 c.2.2 hc hfire]
        rfl
    · have hstep := stepOne_collected_stay c.1 c.2.1 c.2.2 hc hfire
      have hc' : ({ p with collectTimer := p.collectTimer + c.1 } :
        DustParticle).collected = true := hc
      have hc0' : ({ p with collectTimer := p.collectTimer + c.1 } :
        DustParticle).collectTimer ≤ 1.2 := not_lt.mp hfire
      have hdt' : ∀ c' ∈ rest, 0 < c'.1 := fun c' h =>
        hdt c' (List.mem_cons_of_mem _ h)
      have hsum' : 1.2 < ({ p with collectTimer := p.collectTimer + c.1 } :
          DustParticle).collectTimer + (rest.map fun c => c.1).sum := by
        simp only [List.map_cons, List.sum_cons] at hsum
        show 1.2 < p.collectTimer + c.1 + (rest.map fun c => c.1).sum
        linarith
      obtain ⟨k', hk', hstate, hbound, hcross, hcount, hatt, hcol, htim⟩ :=
        ih _ hc' hc0' hdt' hsum'
      refine ⟨k' + 1, Nat.succ_lt_succ hk', ?_, ?_, ?_, ?_, ?_, ?_, ?_⟩
      · intro j hj
        cases j with
        | zero =>
          refine ⟨hc, ?_⟩
          rw [List.take_zero, stepSeq_nil]
          simp
        | succ j' =>
          have hj' : j' ≤ k' := Nat.succ_le_succ_iff.mp hj
          have h1 := hstate j' hj'
          rw [List.take_succ_cons, stepSeq_cons, hstep]
          refine ⟨h1.1, ?_⟩
          rw [h1.2, List.map_cons, List.sum_cons]
          dsimp only
          ring
      · intro j hj
        cases j with
        | zero =>
          simpa using hc0
        | succ j' =>
          have hj' : j' ≤ k' := Nat.succ_le_succ_iff.mp hj
          have h2 := hbound j' hj'
          rw [List.take_succ_cons, List.map_cons, List.sum_cons]
          dsimp only at h2
          linarith
      · rw [List.take_succ_cons, List.map_cons, List.sum_cons]
        dsimp only at hcross
        linarith
      · rw [List.take_succ_cons, dwellCount_cons, hstep,
          if_neg (fun h => hfire h.2), hcount]
      · rw [List.take_succ_cons, stepSeq_cons, hstep]
        exact hatt
      · rw [List.take_succ_cons, stepSeq_cons, hstep]
        exact hcol
      · rw [List.take_succ_cons, stepSeq_cons, hstep]
        exact htim

/-- Claim C3, witness: a freshly collected particle stepped with chunks of
0.7 s and 0.8 s (total 1.5 s > 1.2 s) fires exactly one dwell respawn. -/
theorem C3_witness :
    ∃ k < ([((0.7 : ℝ), (0 : ℝ), r0), ((0.8 : ℝ), (0 : ℝ), r0)]).length,
      (∀ j ≤ k, (stepSeq pCollected
          (([((0.7 : ℝ), (0 : ℝ), r0), ((0.8 : ℝ), (0 : ℝ), r0)]).take j)).collected = true ∧
        (stepSeq pCollected
          (([((0.7 : ℝ), (0 : ℝ), r0), ((0.8 : ℝ), (0 : ℝ), r0)]).take j)).collectTimer =
          pCollected.collectTimer +
            ((([((0.7 : ℝ), (0 : ℝ), r0), ((0.8 : ℝ), (0 : ℝ), r0)]).take j).map
              fun c => c.1).sum) ∧
      (∀ j ≤ k, pCollected.collectTimer +
          ((([((0.7 : ℝ), (0 : ℝ), r0), ((0.8 : ℝ), (0 : ℝ), r0)]).take j).map
            fun c => c.1).sum ≤ 1.2) ∧
      1.2 < pCollected.collectTimer +
          ((([((0.7 : ℝ), (0 : ℝ), r0), ((0.8 : ℝ), (0 : ℝ), r0)]).take (k + 1)).map
            fun c => c.1).sum ∧
      dwellCount pCollected
        (([((0.7 : ℝ), (0 : ℝ), r0), ((0.8 : ℝ), (0 : ℝ), r0)]).take (k + 1)) = 1 ∧
      (stepSeq pCollected
        (([((0.7 : ℝ), (0 : ℝ), r0), ((0.8 : ℝ), (0 : ℝ), r0)]).take (k + 1))).attached = true ∧
      (stepSeq pCollected
        (([((0.7 : ℝ), (0 : ℝ), r0), ((0.8 : ℝ), (0 : ℝ), r0)]).take (k + 1))).collected = false ∧
      (stepSeq pCollected
        (([((0.7 : ℝ), (0 : ℝ), r0), ((0.8 : ℝ), (0 : ℝ), r0)]).take (k + 1))).collectTimer = 0 := by
  apply C3_theorem pCollected [((0.7 : ℝ), (0 : ℝ), r0), ((0.8 : ℝ), (0 : ℝ), r0)] rfl
  · norm_num [pCollected]
  · intro c hcm
    rw [List.mem_cons, List.mem_singleton] at hcm
    rcases hcm with rfl | rfl <;> norm_num
  · norm_num [pCollected]

end Ancilia
